import Mathlib

/-!
Verification of the incremental response stream processor and typewriter
engine of the chat web client.

Strings from the source (JavaScript/TypeScript) are modelled as `List Char`
so that splitting and concatenation admit structural induction.  `JSON.parse`
is modelled as an executable recursive-descent parser returning `Option Json`
(the thrown `SyntaxError` of the source becomes `none`).  Numbers are kept
exact as a normalised mantissa/decimal-exponent pair; IEEE double rounding is
not modelled, and object field lists keep every member in source order.
-/

/-- JavaScript strings, modelled as lists of characters. -/
abbrev Str := List Char

/-- The newline character that delimits chunks and SSE lines. -/
def nl : Char := Char.ofNat 10

/-- The double-quote character of JSON string syntax. -/
def dq : Char := Char.ofNat 34

/-- The opening-brace character of JSON object syntax. -/
def lbr : Char := Char.ofNat 123

/-- The closing-brace character of JSON object syntax. -/
def rbr : Char := Char.ofNat 125

/-- The backslash character used by JSON escapes. -/
def bsl : Char := Char.ofNat 92

/-- Parsed JSON values.  Numbers are `m * 10 ^ e` with the mantissa stripped
of trailing zero factors; strings are character lists; objects keep their
members in source order. -/
inductive Json where
  | null : Json
  | bool (b : Bool) : Json
  | num (m : Int) (e : Int) : Json
  | str (s : Str) : Json
  | arr (elems : List Json) : Json
  | obj (fields : List (Str × Json)) : Json

mutual

/-- Decidable equality of JSON values (the derive handler does not support
this nested inductive). -/
def Json.decEq : (a b : Json) → Decidable (a = b)
  | .null, .null => isTrue rfl
  | .null, .bool _ => isFalse nofun
  | .null, .num _ _ => isFalse nofun
  | .null, .str _ => isFalse nofun
  | .null, .arr _ => isFalse nofun
  | .null, .obj _ => isFalse nofun
  | .bool _, .null => isFalse nofun
  | .bool a, .bool b => decidable_of_iff (a = b) (by simp)
  | .bool _, .num _ _ => isFalse nofun
  | .bool _, .str _ => isFalse nofun
  | .bool _, .arr _ => isFalse nofun
  | .bool _, .obj _ => isFalse nofun
  | .num _ _, .null => isFalse nofun
  | .num _ _, .bool _ => isFalse nofun
  | .num m e, .num m2 e2 => decidable_of_iff (m = m2 ∧ e = e2) (by simp)
  | .num _ _, .str _ => isFalse nofun
  | .num _ _, .arr _ => isFalse nofun
  | .num _ _, .obj _ => isFalse nofun
  | .str _, .null => isFalse nofun
  | .str _, .bool _ => isFalse nofun
  | .str _, .num _ _ => isFalse nofun
  | .str s, .str s2 => decidable_of_iff (s = s2) (by simp)
  | .str _, .arr _ => isFalse nofun
  | .str _, .obj _ => isFalse nofun
  | .arr _, .null => isFalse nofun
  | .arr _, .bool _ => isFalse nofun
  | .arr _, .num _ _ => isFalse nofun
  | .arr _, .str _ => isFalse nofun
  | .arr xs, .arr ys =>
    match Json.decEqList xs ys with
    | isTrue h => isTrue (by rw [h])
    | isFalse h => isFalse (by simp [h])
  | .arr _, .obj _ => isFalse nofun
  | .obj _, .null => isFalse nofun
  | .obj _, .bool _ => isFalse nofun
  | .obj _, .num _ _ => isFalse nofun
  | .obj _, .str _ => isFalse nofun
  | .obj _, .arr _ => isFalse nofun
  | .obj fs, .obj gs =>
    match Json.decEqFields fs gs with
    | isTrue h => isTrue (by rw [h])
    | isFalse h => isFalse (by simp [h])

/-- Decidable equality of JSON value lists. -/
def Json.decEqList : (xs ys : List Json) → Decidable (xs = ys)
  | [], [] => isTrue rfl
  | [], _ :: _ => isFalse nofun
  | _ :: _, [] => isFalse nofun
  | x :: xs, y :: ys =>
    match Json.decEq x y, Json.decEqList xs ys with
    | isTrue h1, isTrue h2 => isTrue (by rw [h1, h2])
    | isFalse h1, _ => isFalse (by simp [h1])
    | _, isFalse h2 => isFalse (by simp [h2])

/-- Decidable equality of JSON object field lists. -/
def Json.decEqFields : (fs gs : List (Str × Json)) → Decidable (fs = gs)
  | [], [] => isTrue rfl
  | [], _ :: _ => isFalse nofun
  | _ :: _, [] => isFalse nofun
  | (k, v) :: fs, (k2, v2) :: gs =>
    match inferInstanceAs (Decidable (k = k2)), Json.decEq v v2,
        Json.decEqFields fs gs with
    | isTrue h1, isTrue h2, isTrue h3 =>
      isTrue (by rw [h1, h2, h3])
    | isFalse h1, _, _ => isFalse (by simp [h1])
    | _, isFalse h2, _ => isFalse (by simp [h2])
    | _, _, isFalse h3 => isFalse (by simp [h3])

end

instance : DecidableEq Json := Json.decEq

/-- JSON insignificant whitespace (exactly the four characters of the
JSON grammar, which is also what the JavaScript `JSON.parse` skips). -/
def isJsonWs (c : Char) : Bool :=
  c == ' ' || c == Char.ofNat 9 || c == nl || c == Char.ofNat 13

/-- Drop leading JSON whitespace. -/
def dropWs (l : Str) : Str := l.dropWhile isJsonWs

/-- Value of a hexadecimal digit, if the character is one. -/
def hexVal (c : Char) : Option Nat :=
  if c.isDigit then some (c.toNat - 48)
  else if 'a' ≤ c ∧ c ≤ 'f' then some (c.toNat - 87)
  else if 'A' ≤ c ∧ c ≤ 'F' then some (c.toNat - 55)
  else none

/-- Body of a JSON string literal, after the opening quote: returns the
decoded characters and the remainder after the closing quote.  Unescaped
control characters are a parse error, as in the JSON grammar. -/
def parseStringBody : Str → Option (Str × Str)
  | [] => none
  | c :: r =>
    if c == dq then some ([], r)
    else if c == bsl then
      match r with
      | [] => none
      | e :: r2 =>
        if e == 'u' then
          match r2 with
          | h1 :: h2 :: h3 :: h4 :: r3 =>
            match hexVal h1, hexVal h2, hexVal h3, hexVal h4 with
            | some a, some b, some c2, some d =>
              (parseStringBody r3).map fun p =>
                (Char.ofNat (4096 * a + 256 * b + 16 * c2 + d) :: p.1, p.2)
            | _, _, _, _ => none
          | _ => none
        else
          match
            (if e == dq then some dq
             else if e == bsl then some bsl
             else if e == '/' then some '/'
             else if e == 'b' then some (Char.ofNat 8)
             else if e == 'f' then some (Char.ofNat 12)
             else if e == 'n' then some nl
             else if e == 'r' then some (Char.ofNat 13)
             else if e == 't' then some (Char.ofNat 9)
             else none) with
          | some d => (parseStringBody r2).map fun p => (d :: p.1, p.2)
          | none => none
    else if c.toNat < 32 then none
    else (parseStringBody r).map fun p => (c :: p.1, p.2)

/-- Digits of a character list read as a natural number. -/
def digitsToNat (l : Str) : Nat :=
  l.foldl (fun acc c => 10 * acc + (c.toNat - 48)) 0

/-- Strip factors of ten from the mantissa into the exponent, so equal
numeric values receive equal representations. -/
def normNum : Nat → Int → Int → Int × Int
  | 0, m, e => (m, e)
  | fuel + 1, m, e =>
    if m ≠ 0 ∧ m % 10 = 0 then normNum fuel (m / 10) (e + 1) else (m, e)

/-- JSON number literal: optional minus, integer part without leading
zeros, optional fraction, optional exponent. -/
def parseNumber (l : Str) : Option (Json × Str) :=
  let (neg, l1) : Bool × Str :=
    match l with
    | '-' :: r => (true, r)
    | _ => (false, l)
  match l1 with
  | [] => none
  | c :: r =>
    if ¬ c.isDigit then none
    else
      let (intDigits, r2) : Str × Str :=
        if c == '0' then ([c], r)
        else (c :: r.takeWhile Char.isDigit, r.dropWhile Char.isDigit)
      let (fracDigits, r3) : Str × Str :=
        match r2 with
        | '.' :: r2a =>
          (r2a.takeWhile Char.isDigit, r2a.dropWhile Char.isDigit)
        | _ => ([], r2)
      let fracOk : Bool :=
        match r2 with
        | '.' :: _ => fracDigits.length > 0
        | _ => true
      let (expOk, expVal, r4) : Bool × Int × Str :=
        match r3 with
        | c2 :: r3a =>
          if c2 == 'e' || c2 == 'E' then
            let (esign, r3b) : Bool × Str :=
              match r3a with
              | '+' :: rb => (false, rb)
              | '-' :: rb => (true, rb)
              | _ => (false, r3a)
            let eds := r3b.takeWhile Char.isDigit
            if eds.length > 0 then
              (true,
               (if esign then -(digitsToNat eds : Int) else (digitsToNat eds : Int)),
               r3b.dropWhile Char.isDigit)
            else (false, 0, r3)
          else (true, 0, r3)
        | [] => (true, 0, r3)
      if fracOk ∧ expOk then
        let mAbs : Nat := digitsToNat (intDigits ++ fracDigits)
        let m : Int := if neg then -(mAbs : Int) else (mAbs : Int)
        let e : Int := expVal - (fracDigits.length : Int)
        let (m2, e2) := normNum (intDigits.length + fracDigits.length + 1) m e
        some (Json.num m2 e2, r4)
      else none

mutual

/-- One JSON value, with leading whitespace skipped; the fuel bounds the
recursion depth and is always supplied large enough for the input. -/
def parseVal : Nat → Str → Option (Json × Str)
  | 0, _ => none
  | fuel + 1, l =>
    match dropWs l with
    | 'n' :: 'u' :: 'l' :: 'l' :: r => some (Json.null, r)
    | 't' :: 'r' :: 'u' :: 'e' :: r => some (Json.bool true, r)
    | 'f' :: 'a' :: 'l' :: 's' :: 'e' :: r => some (Json.bool false, r)
    | c :: r =>
      if c == dq then (parseStringBody r).map fun p => (Json.str p.1, p.2)
      else if c == lbr then
        match dropWs r with
        | c2 :: r2 =>
          if c2 == rbr then some (Json.obj [], r2)
          else parseMembers fuel (c2 :: r2) []
        | [] => none
      else if c == '[' then
        match dropWs r with
        | ']' :: r2 => some (Json.arr [], r2)
        | r2 => parseElems fuel r2 []
      else parseNumber (c :: r)
    | [] => none

/-- Members of a JSON object after the opening brace, accumulating fields
in source order. -/
def parseMembers : Nat → Str → List (Str × Json) → Option (Json × Str)
  | 0, _, _ => none
  | fuel + 1, l, acc =>
    match dropWs l with
    | c :: r =>
      if c == dq then
        match parseStringBody r with
        | some (k, r2) =>
          match dropWs r2 with
          | ':' :: r3 =>
            match parseVal fuel r3 with
            | some (v, r4) =>
              match dropWs r4 with
              | ',' :: r5 => parseMembers fuel r5 (acc ++ [(k, v)])
              | c2 :: r5 =>
                if c2 == rbr then some (Json.obj (acc ++ [(k, v)]), r5)
                else none
              | [] => none
            | none => none
          | _ => none
        | none => none
      else none
    | [] => none

/-- Elements of a JSON array after the opening bracket. -/
def parseElems : Nat → Str → List Json → Option (Json × Str)
  | 0, _, _ => none
  | fuel + 1, l, acc =>
    match parseVal fuel l with
    | some (v, r) =>
      match dropWs r with
      | ',' :: r2 => parseElems fuel r2 (acc ++ [v])
      | ']' :: r2 => some (Json.arr (acc ++ [v]), r2)
      | _ => none
    | none => none

end

namespace JSON

/-- Model of the JavaScript `JSON.parse`: parse one value and require that
only whitespace remains; a `SyntaxError` of the source is `none` here. -/
def parse (l : Str) : Option Json :=
  match parseVal (l.length + 1) l with
  | some (v, r) => if dropWs r = [] then some v else none
  | none => none

end JSON

/-- JavaScript truthiness of a parsed JSON value: `false`, `0`, the empty
string and `null` are falsy; arrays and objects are always truthy. -/
def truthy : Json → Bool
  | Json.null => false
  | Json.bool b => b
  | Json.num m _ => m != 0
  | Json.str s => s != []
  | Json.arr _ => true
  | Json.obj _ => true

/-- The held partial, or the empty string; the source computes
`(currPartialChunk || "") + chunk`. -/
def orEmpty : Option Str → Str
  | none => []
  | some s => s

/-- Splitting on the newline character, as `rawChunkString.split("\n")`:
always returns one more piece than there are newlines, so the result is
never empty and its last piece is the trailing (possibly empty) fragment. -/
def splitNl : Str → List Str
  | [] => [[]]
  | c :: r =>
    if c = nl then [] :: splitNl r
    else
      match splitNl r with
      | [] => [[c]]
      | l :: ls => (c :: l) :: ls

/-- The nonempty pieces of a chunk, `split("\n").filter(length > 0)`. -/
def sections (t : Str) : List Str := (splitNl t).filter (fun l => l ≠ [])

/-- `processSingleChunk`: prepend the held partial, try `JSON.parse`;
success clears the partial, failure makes the concatenation the new
partial. -/
def processSingleChunk (chunk : Str) (currPartialChunk : Option Str) :
    Option Json × Option Str :=
  match JSON.parse (orEmpty currPartialChunk ++ chunk) with
  | some j => (some j, none)
  | none => (none, some (orEmpty currPartialChunk ++ chunk))

/-- The `forEach` loop of `processRawChunkString` over the nonempty line
sections: a truthy parsed chunk is pushed and clears the partial; a falsy
parsed chunk only clears the partial (the `if (processedChunk)` test uses
JavaScript truthiness); a failed parse becomes the new partial. -/
def foldSections : List Str → Option Str → List Json × Option Str
  | [], p => ([], p)
  | l :: ls, p =>
    match processSingleChunk l p with
    | (some v, _) =>
      let r := foldSections ls none
      (if truthy v then v :: r.1 else r.1, r.2)
    | (none, part) => foldSections ls part

/-- `processRawChunkString`: the newline-JSON chunk decoder.  An empty
(falsy) raw chunk string returns no events and a `null` partial. -/
def processRawChunkString (rawChunkString : Str) (previousPartialChunk : Option Str) :
    List Json × Option Str :=
  if rawChunkString = [] then ([], none)
  else foldSections (sections rawChunkString) previousPartialChunk

/-- Sequential decoding of a list of raw chunks, threading the partial and
concatenating the emitted event lists, as `handleStream` does across
reads. -/
def decodeSeq : List Str → Option Str → List Json × Option Str
  | [], p => ([], p)
  | c :: cs, p =>
    let r1 := processRawChunkString c p
    let r2 := decodeSeq cs r1.2
    (r1.1 ++ r2.1, r2.2)

/-- Instrumented variant of the section loop that also records, for every
successful parse (truthy or falsy value), the exact source text
`partial + line` that was consumed by it. -/
def foldSectionsT : List Str → Option Str → List (Json × Str) × Option Str
  | [], p => ([], p)
  | l :: ls, p =>
    match JSON.parse (orEmpty p ++ l) with
    | some v =>
      let r := foldSectionsT ls none
      ((v, orEmpty p ++ l) :: r.1, r.2)
    | none => foldSectionsT ls (some (orEmpty p ++ l))

/-- Instrumented chunk decoder: events paired with their source text. -/
def processRawChunkStringT (rawChunkString : Str) (previousPartialChunk : Option Str) :
    List (Json × Str) × Option Str :=
  if rawChunkString = [] then ([], none)
  else foldSectionsT (sections rawChunkString) previousPartialChunk

/-! ### The SSE decoder (`handleSSEStream`) -/

/-- JavaScript regular-expression whitespace, restricted to the ASCII
whitespace characters that can occur in this stream. -/
def isWsRe (c : Char) : Bool :=
  c == ' ' || c == Char.ofNat 9 || c == nl || c == Char.ofNat 13 ||
  c == Char.ofNat 11 || c == Char.ofNat 12

/-- Whether `line.trim() === ""` holds: every character is whitespace. -/
def isBlank (l : Str) : Bool := l.all isWsRe

/-- Scan up to the next brace character, returning the consumed prefix and
the rest beginning with that brace. -/
def scanToBrace : Str → Option (Str × Str)
  | [] => none
  | c :: t =>
    if c = lbr ∨ c = rbr then some ([], c :: t)
    else (scanToBrace t).map fun p => (c :: p.1, p.2)

/-- The global matches of the recovery pattern (an opening brace, a run of
non-brace characters, a closing brace), leftmost and non-overlapping: at an
opening brace whose next brace is closing, a match is taken; at one whose
next brace opens again, scanning resumes from that inner brace, as the
backtracking of `jsonContent.match` does. -/
def bmAux : Nat → Str → List Str
  | 0, _ => []
  | _, [] => []
  | fuel + 1, c :: r =>
    if c = lbr then
      match scanToBrace r with
      | some (body, b :: rest) =>
        if b = rbr then (lbr :: body ++ [rbr]) :: bmAux fuel rest
        else bmAux fuel (b :: rest)
      | _ => []
    else bmAux fuel r

/-- All balanced-brace substrings found by the recovery regular
expression, in occurrence order. -/
def braceMatches (s : Str) : List Str := bmAux (s.length + 1) s

/-- Processing of the payload of one `data: ` line: direct parse on
success yields one event; on failure every brace-matched substring that
parses is yielded in occurrence order, and the rest are dropped with a
logged (non-fatal) error. -/
def processDataPayload (jsonContent : Str) : List Json :=
  match JSON.parse jsonContent with
  | some v => [v]
  | none => (braceMatches jsonContent).filterMap JSON.parse

/-- The `data: ` prefix of SSE framing. -/
def dataPrefix : Str := ['d', 'a', 't', 'a', ':', ' ']

/-- Processing of one complete SSE line: blank lines and lines without the
`data: ` prefix are ignored; otherwise the payload after the prefix is
processed.  The final-flush handling of a leftover buffer performs exactly
these same steps. -/
def processLine (line : Str) : List Json :=
  if isBlank line then []
  else if dataPrefix <+: line then processDataPayload (line.drop 6)
  else []

/-- One read of the SSE loop: append the chunk to the buffer, split on
newlines, hold back the last (possibly incomplete) line, and process each
complete line in order. -/
def sseStep (buffer chunk : Str) : List Json × Str :=
  let ls := splitNl (buffer ++ chunk)
  (((ls.dropLast).map processLine).flatten, ls.getLastD [])

/-- The SSE read loop over a list of chunks. -/
def sseRun : List Str → Str → List Json × Str
  | [], buf => ([], buf)
  | c :: cs, buf =>
    let r1 := sseStep buf c
    let r2 := sseRun cs r1.2
    (r1.1 ++ r2.1, r2.2)

/-- A whole SSE stream: run every chunk through the loop, then flush the
remaining buffer through the same primary-plus-recovery logic once. -/
def sseDecodeAll (chunks : List Str) : List Json :=
  let r := sseRun chunks []
  r.1 ++ processLine r.2

/-! ### The citation filter of the typewriter (`filterCitationsForTyping`)

The three global regular-expression replacements are modelled by
deterministic scanners.  Each pattern's backtracking is resolvable in
advance: inside a parenthesis body the alternatives never consume a bare
closing parenthesis, and the digit, separator and whitespace classes are
pairwise disjoint where it matters, so the greedy scan is the unique
match attempt at every start position. -/

/-- Character class of the first bracket body: digits, commas, whitespace
and hyphens. -/
def classNum1 (c : Char) : Bool :=
  c.isDigit || c == ',' || isWsRe c || c == '-'

/-- Separator class between citation numbers: comma, whitespace, hyphen. -/
def sepClass (c : Char) : Bool :=
  c == ',' || isWsRe c || c == '-'

/-- Body of a parenthesised URL group allowing one nesting level: a
sequence of non-parenthesis characters and complete inner groups, ended by
the closing parenthesis; returns the remainder after it. -/
def parenBody : Nat → Str → Option Str
  | 0, _ => none
  | _, [] => none
  | fuel + 1, c :: r =>
    if c = ')' then some r
    else if c = '(' then
      match r.dropWhile (fun c2 => c2 != '(' && c2 != ')') with
      | ')' :: r2 => parenBody fuel r2
      | _ => none
    else parenBody fuel r

/-- Match attempt at one position for the first pattern, double-bracketed
citation lists followed by a parenthesised target; returns the remainder
after the match. -/
def tryMatch1 : Str → Option Str
  | a :: b :: r =>
    if a = '[' ∧ b = '[' then
      if r.takeWhile classNum1 = [] then none
      else
        match r.dropWhile classNum1 with
        | x :: y :: z :: r2 =>
          if x = ']' ∧ y = ']' ∧ z = '(' then parenBody (r2.length + 1) r2
          else none
        | _ => none
    else none
  | _ => none

/-- The iterated `separator, whitespace, digits` groups of the second
pattern; returns the position after the last complete group. -/
def iters2 : Nat → Str → Str
  | 0, l => l
  | fuel + 1, l =>
    match l with
    | c :: t =>
      if sepClass c then
        let t2 := t.dropWhile isWsRe
        if t2.takeWhile Char.isDigit = [] then l
        else iters2 fuel (t2.dropWhile Char.isDigit)
      else l
    | [] => l

/-- Match attempt for the second pattern, single-bracketed numeric citation
lists followed by a parenthesised target. -/
def tryMatch2 : Str → Option Str
  | a :: r =>
    if a = '[' then
      if r.takeWhile Char.isDigit = [] then none
      else
        match iters2 (r.length + 1) (r.dropWhile Char.isDigit) with
        | x :: z :: r2 =>
          if x = ']' ∧ z = '(' then parenBody (r2.length + 1) r2
          else none
        | _ => none
    else none
  | [] => none

/-- The URL body and closing parenthesis of the orphan-URL pattern: at
least one character that is neither whitespace nor a closing parenthesis,
then the closing parenthesis. -/
def urlGroupTail (r : Str) : Option Str :=
  if r.takeWhile (fun c => !(isWsRe c) && c != ')') = [] then none
  else
    match r.dropWhile (fun c => !(isWsRe c) && c != ')') with
    | ')' :: r2 => some r2
    | _ => none

/-- The `http://` or `https://` scheme of the orphan-URL pattern; trying
the longer alternative first is equivalent to the backtracking of the
optional `s`. -/
def stripHttpScheme : Str → Option Str
  | 'h' :: 't' :: 't' :: 'p' :: 's' :: ':' :: '/' :: '/' :: r => some r
  | 'h' :: 't' :: 't' :: 'p' :: ':' :: '/' :: '/' :: r => some r
  | _ => none

/-- A parenthesised absolute URL: opening parenthesis, scheme, then the
URL body and closing parenthesis. -/
def urlGroup : Str → Option Str
  | c :: r =>
    if c = '(' then
      match stripHttpScheme r with
      | some r2 => urlGroupTail r2
      | none => none
    else none
  | [] => none

/-- Match attempt for the third pattern, an orphan parenthesised URL
preceded by the start of the string or a character other than a closing
bracket; the preceding character is kept by the replacement. -/
def tryMatch3 (atStart : Bool) (l : Str) : Option (Str × Str) :=
  match (if atStart then urlGroup l else none) with
  | some r => some ([], r)
  | none =>
    match l with
    | c :: t =>
      if c = ']' then none
      else (urlGroup t).map fun r => ([c], r)
    | [] => none

/-- Global replacement scan deleting every match of the given matcher, as
`String.replace(..., '')` with a global pattern: scanning resumes after
each match and never rescans replaced output. -/
def gScan (m : Str → Option Str) : Nat → Str → Str
  | 0, l => l
  | _ + 1, [] => []
  | fuel + 1, c :: t =>
    match m (c :: t) with
    | some rest => gScan m fuel rest
    | none => c :: gScan m fuel t

/-- Global replacement scan for the third pattern, keeping the captured
preceding character; the start-of-string anchor only applies at the first
position. -/
def gScan3 : Nat → Bool → Str → Str
  | 0, _, l => l
  | _ + 1, _, [] => []
  | fuel + 1, atStart, c :: t =>
    match tryMatch3 atStart (c :: t) with
    | some (pre, rest) => pre ++ gScan3 fuel false rest
    | none => c :: gScan3 fuel false t

/-- `filterCitationsForTyping`: strip double-bracket citation markers,
numeric citation markers, and orphan parenthesised URLs, in that order. -/
def filterCitationsForTyping (content : Str) : Str :=
  let s1 := gScan tryMatch1 (content.length + 1) content
  let s2 := gScan tryMatch2 (s1.length + 1) s1
  gScan3 (s2.length + 1) true s2

/-! ### The typewriter engine (`useTypewriterEffect`)

The hook state is a record: the two `useState` values (`displayedContent`
and `isTypingComplete`), the five refs, and the pending `setTimeout`
callback.  The callback closure of `typeNextChar` captures its own local
`fullContent` and `currentIndex` variables together with the render-time
value of `isTypingComplete`; those three captured values are stored in
`pending`.  The external `setChatState` and `setCompleteMessageID`
callbacks leave the hook state untouched and are not modelled. -/

/-- The state of one `useTypewriterEffect` instance. -/
structure TW where
  /-- `displayedContent` state value. -/
  displayed : Str
  /-- `isTypingComplete` state value. -/
  complete : Bool
  /-- `isTypingRef.current`. -/
  isTyping : Bool
  /-- `lastContentRef.current`. -/
  lastContent : Str
  /-- `currentTypingIndexRef.current`. -/
  idx : Nat
  /-- `typingDisabledRef.current`. -/
  typingDisabled : Bool
  /-- The scheduled `typeNextChar` callback, if a timeout is pending:
  its captured `fullContent`, its captured `currentIndex`, and the stale
  `isTypingComplete` value its closure read at creation. -/
  pending : Option (Str × Nat × Bool)
  deriving DecidableEq

/-- The initial hook state of a freshly mounted component. -/
def TW.init : TW :=
  { displayed := [], complete := false, isTyping := false,
    lastContent := [], idx := 0, typingDisabled := false, pending := none }

/-- One synchronous run of `typeNextChar` with captured content `fc`,
captured pre-increment index `ci` and captured completion flag `cap`:
inside the guard the index advances, the captured content is re-filtered,
the displayed string becomes the filtered prefix, and a follow-up tick is
scheduled only while the filtered length is not yet reached. -/
def runTypeNext (s : TW) (fc : Str) (ci : Nat) (cap : Bool) : TW :=
  if ci < fc.length ∧ cap = false ∧ s.isTyping = true then
    let ci2 := ci + 1
    let fc2 := filterCitationsForTyping fc
    let disp := fc2.take ci2
    if ci2 < fc2.length then
      { s with idx := ci2, displayed := disp,
               pending := some (fc2, ci2, cap) }
    else
      { s with idx := ci2, displayed := disp, isTyping := false }
  else
    { s with isTyping := false }

/-- `continueTyping`: a no-op while the typing flag is already set,
otherwise set the flag and run the first `typeNextChar` immediately; the
closure captures the current `isTypingComplete`. -/
def continueTyping (s : TW) (fullContent : Str) (startIndex : Nat) : TW :=
  if s.isTyping = true then s
  else runTypeNext { s with isTyping := true } fullContent startIndex s.complete

/-- `startTyping`: a no-op while the typing flag is set; otherwise it sets
the flag and the index ref, then calls `continueTyping` — which finds the
flag it has just set and returns immediately. -/
def startTyping (s : TW) (fullContent : Str) (startIndex : Nat) : TW :=
  if s.isTyping = true then s
  else continueTyping { s with isTyping := true, idx := startIndex }
    fullContent startIndex

/-- The content-change effect: mirror the content while typing is
disabled; reset everything on non-extension content and call the dead
`startTyping`; continue typing from the current index ref while the
content grows as an extension. -/
def contentEffect (s : TW) (content : Str) (isComplete : Bool) : TW :=
  if s.typingDisabled = true then
    { s with displayed := content, lastContent := content,
             complete := if isComplete then true else s.complete }
  else if content ≠ s.lastContent ∧ ¬ s.lastContent <+: content then
    (if content ≠ [] then
      startTyping
        { s with displayed := [], complete := false, isTyping := false,
                 idx := 0, lastContent := content } content 0
    else
      { s with displayed := [], complete := false, isTyping := false,
               idx := 0, lastContent := content })
  else if s.lastContent.length < content.length ∧ s.lastContent <+: content then
    { (if content.drop s.idx ≠ [] then continueTyping s content s.idx else s)
      with lastContent := content }
  else s

/-- The completion effect: when the completion flag or the shared flag is
set, cancel the pending timeout, clear the typing flag, and show the full
content with citations — the unfiltered `content` — marking typing
complete and moving the index ref to the content length. -/
def completionEffect (s : TW) (content : Str) (isComplete shared : Bool) : TW :=
  if isComplete || shared then
    { s with pending := none, isTyping := false, displayed := content,
             complete := true, idx := content.length }
  else s

/-- A scheduled timeout firing: the pending callback, if any, is consumed
and run with its captured values. -/
def tickStep (s : TW) : TW :=
  match s.pending with
  | none => s
  | some (fc, ci, cap) => runTypeNext { s with pending := none } fc ci cap

/-- The visible branch of the `visibilitychange` handler: when typing is
incomplete, the display lags the content and the typing flag is clear,
cancel any timeout and call `startTyping` from the displayed length. -/
def visibilityVisible (s : TW) (content : Str) : TW :=
  if s.complete = false ∧ s.displayed.length < content.length ∧
      s.isTyping = false then
    let s1 := { s with pending := none, isTyping := false }
    if content.drop s.displayed.length ≠ [] then
      startTyping s1 content s.displayed.length
    else s1
  else s

/-! ### Interrupt persistence (the session-storage flag) -/

/-- The per-tab durable store, a map from string keys to string values. -/
def Store := Str → Option Str

/-- The storage key `disableTyping:<sessionId>:<messageId>`, present only
when both identifiers are. -/
def mkKey : Option Str → Option Str → Option Str
  | some sid, some mid =>
    some (("disableTyping:").toList ++ sid ++ [':'] ++ mid)
  | _, _ => none

/-- The mount effect: when the stored flag for this key is `"1"`, disable
the typewriter, reflect the current content immediately, mark complete if
the content already is, and record the content as last seen. -/
def mountEffect (content : Str) (isComplete : Bool)
    (sid mid : Option Str) (store : Store) (s : TW) : TW :=
  match mkKey sid mid with
  | some k =>
    if store k = some ['1'] then
      { s with typingDisabled := true, displayed := content,
               complete := if isComplete then true else s.complete,
               lastContent := content }
    else s
  | none => s

/-- The unmount cleanup: persist the flag when typing had not completed,
remove it when it had. -/
def unmountCleanup (sid mid : Option Str) (s : TW) (store : Store) : Store :=
  match mkKey sid mid with
  | some k =>
    if s.complete = false then
      fun k2 => if k2 = k then some ['1'] else store k2
    else
      fun k2 => if k2 = k then none else store k2
  | none => store

/-- Update steps of one typewriter instance used by the monotonicity
claim: a content update delivered by the stream, or a timer tick. -/
inductive Op where
  /-- A content snapshot update `(content, isComplete)`. -/
  | update (c : Str) (ic : Bool) : Op
  /-- A `setTimeout` callback firing. -/
  | tick : Op
  deriving DecidableEq

/-- One step of the typewriter under an update or tick. -/
def twStep (s : TW) : Op → TW
  | Op.update c ic => contentEffect s c ic
  | Op.tick => tickStep s

/-- A run of the typewriter over a list of steps. -/
def twRun (s : TW) : List Op → TW
  | [] => s
  | op :: ops => twRun (twStep s op) ops

/-- The reachable-state invariant of the tick machinery: a pending
callback's captured index equals the index ref and the typing flag is
set. -/
def InvB (s : TW) : Bool :=
  match s.pending with
  | none => true
  | some (_, ci, _) => s.idx == ci && s.isTyping

/-- An op list is an extension run from `s` when every content update of
the run extends the content last seen at that point. -/
def extOkB : TW → List Op → Bool
  | _, [] => true
  | s, Op.update c ic :: ops =>
    s.lastContent.isPrefixOf c && extOkB (twStep s (Op.update c ic)) ops
  | s, Op.tick :: ops => extOkB (twStep s Op.tick) ops

/-! ### Split-analysis helpers for chunk-boundary invariance -/

/-- The last piece of a splitting, or the empty string for an empty
list. -/
def lastD : List Str → Str
  | [] => []
  | [x] => x
  | _ :: xs => lastD xs

/-- Merge of two newline-splittings across a concatenation boundary: the
last piece of the first and the first piece of the second fuse into one
line. -/
def joinLast : List Str → List Str → List Str
  | [], ys => ys
  | [x], [] => [x]
  | [x], y :: ys => (x ++ y) :: ys
  | x :: xs, ys => x :: joinLast xs ys

/-- Boundary soundness of a split into chunks: at every boundary, either
the left chunk's trailing line fragment is empty (the boundary sits just
after a newline), or the right chunk begins with a newline, or the decoder
holds a nonempty partial there (the trailing fragment failed to parse).
The counterexample to unconditional invariance is a boundary where the
trailing fragment alone already parses as JSON. -/
def okSplit : List Str → Option Str → Bool
  | [], _ => true
  | [_], _ => true
  | c1 :: c2 :: rest, p =>
    let p1 := (processRawChunkString c1 p).2
    (lastD (splitNl c1) == [] || (splitNl c2).headD [] == [] ||
      p1.isSome) &&
    okSplit (c2 :: rest) p1

/-! ### Concrete fixtures used by the claims -/

/-- The source text of the JSON object mapping key `a` to `1`. -/
def jsonA : Str := [lbr, dq, 'a', dq, ':', '1', rbr]

/-- The source text of the JSON object mapping key `b` to `2`. -/
def jsonB : Str := [lbr, dq, 'b', dq, ':', '2', rbr]

/-- The parsed event for `jsonA`. -/
def evA : Json := Json.obj [(['a'], Json.num 1 0)]

/-- The parsed event for `jsonB`. -/
def evB : Json := Json.obj [(['b'], Json.num 2 0)]

/-- The SSE recovery test line: a `data: ` line whose payload is garbage
containing two balanced-brace objects. -/
def sseRecoveryLine : Str :=
  dataPrefix ++ ("garbage ").toList ++ jsonA ++
    (" more-garbage ").toList ++ jsonB ++ [nl]

/-- A reachable mid-typing typewriter state: content `Hello` arrived, two
characters are revealed, the current tick has finished and no timeout is
scheduled (as after the filtered content ran out or a hidden-tab snap),
typing incomplete. -/
def twMidTyping : TW :=
  { displayed := ("He").toList, complete := false, isTyping := false,
    lastContent := ("Hello").toList, idx := 2, typingDisabled := false,
    pending := none }

/-! ## Theorems -/

/-! ### Claim C6: the empty-chunk frame property -/

/-- Claim C6 (counterexample): the empty chunk does not leave a non-null
partial unchanged — `processRawChunkString` returns a `null` partial
because the falsy-string guard returns before the held partial is ever
threaded through. -/
theorem C6_counterexample :
    processRawChunkString [] (some ['x']) = ([], none) ∧
    processRawChunkString [] (some ['x']) ≠ ([], some ['x']) := by
  decide

/-- Claim C6 (amended): an empty chunk yields no events and resets the
partial to null, discarding a held partial; a null partial is of course
preserved. -/
theorem C6_empty_chunk_amended (p : Option Str) :
    processRawChunkString [] p = ([], none) := by
  simp [processRawChunkString]

/-! ### Claim C2: completion postcondition and idempotence -/

/-- Claim C2 (counterexample): on completion the displayed string is the
full raw content, not the citation-filtered content — for a content with a
citation marker the filter changes the text, yet `displayed` keeps it. -/
theorem C2_counterexample :
    (completionEffect TW.init (("See [[1]](http://x) ok").toList) true
        false).displayed = ("See [[1]](http://x) ok").toList ∧
    filterCitationsForTyping (("See [[1]](http://x) ok").toList) ≠
      ("See [[1]](http://x) ok").toList := by
  decide

/-- Claim C2 (amended): when the completion flag becomes true or the
external stop signal (`shared`) arrives, the engine immediately sets the
displayed string to the full unfiltered content (the citation filter
applies only while typing), sets the index ref to the content length,
marks typing complete, cancels the pending timer and clears the typing
flag; a second completion signal for the same content changes nothing. -/
theorem C2_completion_amended (s : TW) (content : Str) (ic sh : Bool)
    (h : ic = true ∨ sh = true) :
    (completionEffect s content ic sh).displayed = content ∧
    (completionEffect s content ic sh).idx = content.length ∧
    (completionEffect s content ic sh).complete = true ∧
    (completionEffect s content ic sh).pending = none ∧
    (completionEffect s content ic sh).isTyping = false ∧
    completionEffect (completionEffect s content ic sh) content ic sh =
      completionEffect s content ic sh := by
  have hg : (ic || sh) = true := by rcases h with h | h <;> simp [h]
  simp [completionEffect, hg]

/-- Witness for the amended completion claim at a concrete input. -/
theorem C2_completion_amended_witness :
    (completionEffect TW.init (("Hi").toList) true false).displayed =
      ("Hi").toList ∧
    (completionEffect TW.init (("Hi").toList) true false).idx =
      (("Hi").toList).length ∧
    (completionEffect TW.init (("Hi").toList) true false).complete = true ∧
    (completionEffect TW.init (("Hi").toList) true false).pending = none ∧
    (completionEffect TW.init (("Hi").toList) true false).isTyping = false ∧
    completionEffect (completionEffect TW.init (("Hi").toList) true false)
        (("Hi").toList) true false =
      completionEffect TW.init (("Hi").toList) true false :=
  C2_completion_amended TW.init (("Hi").toList) true false (Or.inl rfl)

/-! ### Claim C9: visibility-restore resumption -/

/-- Claim C9 (code evaluated at the failing input): in a reachable
mid-typing state with the tab-visible guard satisfied, the handler leaves
no timeout pending and raises the typing flag without revealing anything:
`startTyping` sets `isTypingRef.current` and then calls `continueTyping`,
whose own `isTypingRef.current` guard returns immediately, so no tick is
ever scheduled; a subsequent tick is a no-op and a subsequent growing
content update leaves the display stuck. -/
theorem C9_visibility_restore_stalls :
    visibilityVisible twMidTyping (("Hello").toList) =
      { twMidTyping with isTyping := true } ∧
    (visibilityVisible twMidTyping (("Hello").toList)).pending = none ∧
    tickStep (visibilityVisible twMidTyping (("Hello").toList)) =
      visibilityVisible twMidTyping (("Hello").toList) ∧
    (contentEffect (visibilityVisible twMidTyping (("Hello").toList))
        (("Hello!").toList) false).displayed = ("He").toList := by
  decide

/-! ### Claim C8: SSE brace-matched recovery and ordering -/

/-- Claim C8 (confirmed): the recovery test line yields exactly the two
events, first the object with key `a` and value one and then the object
with key `b` and value two; and in general a failed direct parse emits
exactly the parse-successes of the brace-matched substrings in occurrence
order. -/
theorem C8_sse_recovery_order :
    sseDecodeAll [sseRecoveryLine] = [evA, evB] ∧
    ∀ jc : Str, JSON.parse jc = none →
      processDataPayload jc = (braceMatches jc).filterMap JSON.parse := by
  refine ⟨by decide, ?_⟩
  intro jc h
  simp [processDataPayload, h]

/-- Witness for the recovery-order claim at a concrete failing payload. -/
theorem C8_sse_recovery_order_witness :
    processDataPayload (("garbage").toList) =
      (braceMatches (("garbage").toList)).filterMap JSON.parse :=
  C8_sse_recovery_order.2 (("garbage").toList) (by decide)

/-! ### Claim C10: idempotence of the citation filter -/

/-- A first-pattern match requires an opening parenthesis somewhere in the
scanned text. -/
theorem tryMatch1_eq_none (l : Str) (h : '(' ∉ l) : tryMatch1 l = none := by
  match l with
  | [] => rfl
  | [a] => rfl
  | a :: b :: r =>
    by_cases hab : a = '[' ∧ b = '['
    · simp only [tryMatch1, if_pos hab]
      by_cases htw : r.takeWhile classNum1 = []
      · simp [htw]
      · simp only [if_neg htw]
        rcases hd : r.dropWhile classNum1 with _ | ⟨x, _ | ⟨y, _ | ⟨z, r2⟩⟩⟩
        all_goals try rfl
        by_cases hxyz : x = ']' ∧ y = ']' ∧ z = '('
        · exfalso
          have hz : '(' ∈ r.dropWhile classNum1 := by
            rw [hd]; simp
            exact Or.inr (Or.inr (Or.inl hxyz.2.2.symm))
          have hr : '(' ∈ r := (List.dropWhile_sublist classNum1).mem hz
          exact h (by simp [hr])
        · simp [hxyz]
    · simp [tryMatch1, hab]

/-- The separator-digit iteration scanner only advances, so its result is
a sublist of its input. -/
theorem iters2_sublist :
    ∀ (fuel : Nat) (t : Str), (iters2 fuel t).Sublist t := by
  intro fuel
  induction fuel with
  | zero => intro t; exact List.Sublist.refl t
  | succ f ih =>
    intro t
    match t with
    | [] => exact List.Sublist.refl []
    | c :: t2 =>
      simp only [iters2]
      by_cases hc : sepClass c
      · simp only [if_pos hc]
        by_cases hds : (t2.dropWhile isWsRe).takeWhile Char.isDigit = []
        · simp [hds]
        · simp only [if_neg hds]
          refine List.Sublist.trans (ih _) ?_
          refine List.Sublist.trans (List.dropWhile_sublist Char.isDigit) ?_
          refine List.Sublist.trans (List.dropWhile_sublist isWsRe) ?_
          exact (List.Sublist.refl t2).cons c
      · simp [hc]

/-- A second-pattern match requires an opening parenthesis somewhere in
the scanned text. -/
theorem tryMatch2_eq_none (l : Str) (h : '(' ∉ l) : tryMatch2 l = none := by
  match l with
  | [] => rfl
  | a :: r =>
    by_cases ha : a = '['
    · simp only [tryMatch2, if_pos ha]
      by_cases htw : r.takeWhile Char.isDigit = []
      · simp [htw]
      · simp only [if_neg htw]
        have hsub : (iters2 (r.length + 1) (r.dropWhile Char.isDigit)).Sublist r :=
          List.Sublist.trans (iters2_sublist _ _)
            (List.dropWhile_sublist Char.isDigit)
        rcases hd : iters2 (r.length + 1) (r.dropWhile Char.isDigit)
          with _ | ⟨x, _ | ⟨z, r2⟩⟩
        all_goals try rfl
        by_cases hxz : x = ']' ∧ z = '('
        · exfalso
          have hz : '(' ∈ iters2 (r.length + 1) (r.dropWhile Char.isDigit) := by
            rw [hd]; simp
            exact Or.inr (Or.inl hxz.2.symm)
          have hr : '(' ∈ r := hsub.mem hz
          exact h (by simp [hr])
        · simp [hxz]
    · simp [tryMatch2, ha]

/-- A parenthesised URL requires an opening parenthesis at the head. -/
theorem urlGroup_eq_none (l : Str) (h : '(' ∉ l) : urlGroup l = none := by
  match l with
  | [] => rfl
  | c :: t =>
    have hc : c ≠ '(' := fun he => h (by simp [he])
    simp [urlGroup, hc]

/-- A third-pattern match requires an opening parenthesis somewhere in the
scanned text. -/
theorem tryMatch3_eq_none (st : Bool) (l : Str) (h : '(' ∉ l) :
    tryMatch3 st l = none := by
  have hg : urlGroup l = none := urlGroup_eq_none l h
  match l with
  | [] => cases st <;> simp [tryMatch3, hg]
  | c :: t =>
    have ht : '(' ∉ t := fun hx => h (List.mem_cons_of_mem _ hx)
    have hgt : urlGroup t = none := urlGroup_eq_none t ht
    cases st <;> simp [tryMatch3, hg, hgt]

/-- The deleting global scan is the identity on texts its matcher never
matches anywhere. -/
theorem gScan_eq_self (m : Str → Option Str)
    (hm : ∀ l : Str, '(' ∉ l → m l = none) :
    ∀ (fuel : Nat) (l : Str), '(' ∉ l → gScan m fuel l = l := by
  intro fuel
  induction fuel with
  | zero => intro l _; rfl
  | succ f ih =>
    intro l h
    match l with
    | [] => rfl
    | c :: t =>
      have ht : '(' ∉ t := fun hx => h (List.mem_cons_of_mem _ hx)
      simp [gScan, hm _ h, ih t ht]

/-- The third-pattern scan is the identity on texts without parentheses. -/
theorem gScan3_eq_self :
    ∀ (fuel : Nat) (st : Bool) (l : Str), '(' ∉ l → gScan3 fuel st l = l := by
  intro fuel
  induction fuel with
  | zero => intro st l _; rfl
  | succ f ih =>
    intro st l h
    match l with
    | [] => rfl
    | c :: t =>
      have ht : '(' ∉ t := fun hx => h (List.mem_cons_of_mem _ hx)
      simp [gScan3, tryMatch3_eq_none st _ h, ih false t ht]

/-- Claim C10 (counterexample): the citation filter is not idempotent —
removing the inner double-bracket citation of this input juxtaposes the
remaining characters into a fresh citation pattern, which only a second
application removes. -/
theorem C10_counterexample :
    filterCitationsForTyping
        (filterCitationsForTyping (("[[[1]](u)[2]](v)").toList)) ≠
      filterCitationsForTyping (("[[[1]](u)[2]](v)").toList) := by
  decide

/-- Claim C10 (amended): on content without an opening parenthesis none of
the three patterns can match, so the filter is the identity and in
particular idempotent there; in general a second application can strip
further markup created by juxtaposition, as the counterexample shows. -/
theorem C10_filter_amended (s : Str) (h : '(' ∉ s) :
    filterCitationsForTyping s = s ∧
    filterCitationsForTyping (filterCitationsForTyping s) =
      filterCitationsForTyping s := by
  have hfix : filterCitationsForTyping s = s := by
    simp only [filterCitationsForTyping]
    rw [gScan_eq_self tryMatch1 tryMatch1_eq_none _ _ h,
        gScan_eq_self tryMatch2 tryMatch2_eq_none _ _ h,
        gScan3_eq_self _ _ _ h]
  exact ⟨hfix, by rw [hfix, hfix]⟩

/-- Witness for the amended filter claim at a concrete input. -/
theorem C10_filter_amended_witness :
    filterCitationsForTyping (("hello world").toList) =
      ("hello world").toList ∧
    filterCitationsForTyping
        (filterCitationsForTyping (("hello world").toList)) =
      filterCitationsForTyping (("hello world").toList) :=
  C10_filter_amended (("hello world").toList) (by decide)

/-! ### Claim C4: interrupt persistence round trip -/

/-- Claim C4 (confirmed): unmounting mid-typing persists the flag under
the key `disableTyping:<sessionId>:<messageId>`; a fresh mount with the
same key and the full content then finds the flag, disables the
typewriter, shows the full content at once with no timeout scheduled and
marks the synthetic completion; the next cleanup for the completed state
removes the flag. -/
theorem C4_interrupt_round_trip (S M content : Str) (s : TW) (store : Store)
    (hmid : s.complete = false)
    (k : Str) (hk : k = ("disableTyping:").toList ++ S ++ [':'] ++ M)
    (st1 : Store) (h1 : st1 = unmountCleanup (some S) (some M) s store)
    (s2 : TW) (h2 : s2 = mountEffect content true (some S) (some M) st1 TW.init)
    (st2 : Store) (h3 : st2 = unmountCleanup (some S) (some M) s2 st1) :
    st1 k = some ['1'] ∧ s2.displayed = content ∧ s2.pending = none ∧
    s2.complete = true ∧ s2.typingDisabled = true ∧ st2 k = none := by
  subst h3 h2 h1 hk
  have hst1 : unmountCleanup (some S) (some M) s store
      (("disableTyping:").toList ++ S ++ [':'] ++ M) = some ['1'] := by
    simp [unmountCleanup, mkKey, hmid]
  have hs2 : mountEffect content true (some S) (some M)
      (unmountCleanup (some S) (some M) s store) TW.init =
      { TW.init with typingDisabled := true, displayed := content,
                     complete := true, lastContent := content } := by
    simp only [mountEffect, mkKey]
    rw [if_pos hst1]
    simp
  rw [hs2]
  refine ⟨hst1, rfl, rfl, rfl, rfl, ?_⟩
  simp [unmountCleanup, mkKey]

/-- Witness for the interrupt round trip at concrete identifiers, content,
state and store. -/
theorem C4_interrupt_round_trip_witness :
    unmountCleanup (some ['S']) (some ['7']) twMidTyping (fun _ => none)
        (("disableTyping:").toList ++ ['S'] ++ [':'] ++ ['7']) = some ['1'] ∧
    (mountEffect (("Hello").toList) true (some ['S']) (some ['7'])
        (unmountCleanup (some ['S']) (some ['7']) twMidTyping (fun _ => none))
        TW.init).displayed = ("Hello").toList ∧
    (mountEffect (("Hello").toList) true (some ['S']) (some ['7'])
        (unmountCleanup (some ['S']) (some ['7']) twMidTyping (fun _ => none))
        TW.init).pending = none ∧
    (mountEffect (("Hello").toList) true (some ['S']) (some ['7'])
        (unmountCleanup (some ['S']) (some ['7']) twMidTyping (fun _ => none))
        TW.init).complete = true ∧
    (mountEffect (("Hello").toList) true (some ['S']) (some ['7'])
        (unmountCleanup (some ['S']) (some ['7']) twMidTyping (fun _ => none))
        TW.init).typingDisabled = true ∧
    unmountCleanup (some ['S']) (some ['7'])
        (mountEffect (("Hello").toList) true (some ['S']) (some ['7'])
          (unmountCleanup (some ['S']) (some ['7']) twMidTyping (fun _ => none))
          TW.init)
        (unmountCleanup (some ['S']) (some ['7']) twMidTyping (fun _ => none))
        (("disableTyping:").toList ++ ['S'] ++ [':'] ++ ['7']) = none :=
  C4_interrupt_round_trip ['S'] ['7'] (("Hello").toList) twMidTyping
    (fun _ => none) rfl _ rfl _ rfl _ rfl _ rfl

/-! ### Claim C7: byte conservation in the chunk decoder -/

/-- The newline splitting never returns an empty list of pieces. -/
theorem splitNl_ne_nil : ∀ t : Str, splitNl t ≠ [] := by
  intro t
  match t with
  | [] => simp [splitNl]
  | c :: r =>
    by_cases hc : c = nl
    · simp [splitNl, hc]
    · simp only [splitNl, if_neg hc]
      rcases hs : splitNl r with _ | ⟨l, ls⟩ <;> simp

/-- Concatenating the pieces of the newline splitting recovers the text
without its newline delimiters. -/
theorem splitNl_flatten : ∀ t : Str, (splitNl t).flatten =
    t.filter (fun c => c ≠ nl) := by
  intro t
  induction t with
  | nil => simp [splitNl]
  | cons c r ih =>
    by_cases hc : c = nl
    · simp [splitNl, hc, ih]
    · simp only [splitNl, if_neg hc]
      rcases hs : splitNl r with _ | ⟨l, ls⟩
      · exact absurd hs (splitNl_ne_nil r)
      · rw [hs] at ih
        simp only [List.flatten_cons] at ih
        simp at ih
        simp [List.filter_cons, hc, ih]

/-- Dropping empty pieces does not change the concatenation. -/
theorem flatten_filter_ne_nil : ∀ xs : List Str,
    ((xs.filter (fun l => l ≠ [])).flatten) = xs.flatten := by
  intro xs
  induction xs with
  | nil => rfl
  | cons x rest ih =>
    simp at ih
    by_cases hx : x = []
    · simp [List.filter_cons, hx, ih]
    · simp [List.filter_cons, hx, ih]

/-- The nonempty line sections of a chunk concatenate to the chunk without
its newline delimiters. -/
theorem sections_flatten (t : Str) :
    (sections t).flatten = t.filter (fun c => c ≠ nl) := by
  rw [sections, flatten_filter_ne_nil, splitNl_flatten]

/-- Conservation through the instrumented section loop: the held partial
followed by the sections equals the consumed source texts followed by the
final partial. -/
theorem foldSectionsT_conserve : ∀ (ls : List Str) (p : Option Str),
    orEmpty p ++ ls.flatten =
      ((foldSectionsT ls p).1.map Prod.snd).flatten ++
        orEmpty (foldSectionsT ls p).2 := by
  intro ls
  induction ls with
  | nil => intro p; simp [foldSectionsT]
  | cons l rest ih =>
    intro p
    rcases h : JSON.parse (orEmpty p ++ l) with _ | v
    · have hthis := ih (some (orEmpty p ++ l))
      rw [show orEmpty (some (orEmpty p ++ l)) = orEmpty p ++ l from rfl]
        at hthis
      simp only [foldSectionsT, h, List.flatten_cons]
      rw [← List.append_assoc]
      exact hthis
    · have hthis := ih none
      rw [show orEmpty (none : Option Str) = [] from rfl,
          List.nil_append] at hthis
      simp only [foldSectionsT, h, List.flatten_cons, List.map_cons]
      rw [hthis]
      simp [List.append_assoc]

/-- The real section loop is the truthy projection of the instrumented
one: same final partial, and the emitted events are exactly the truthy
parsed values in order. -/
theorem foldSections_eq_T : ∀ (ls : List Str) (p : Option Str),
    foldSections ls p =
      (((foldSectionsT ls p).1.filter (fun e => truthy e.1)).map Prod.fst,
       (foldSectionsT ls p).2) := by
  intro ls
  induction ls with
  | nil => intro p; simp [foldSections, foldSectionsT]
  | cons l rest ih =>
    intro p
    rcases h : JSON.parse (orEmpty p ++ l) with _ | v
    · simp [foldSections, foldSectionsT, processSingleChunk, h, ih]
    · by_cases ht : truthy v
      · simp [foldSections, foldSectionsT, processSingleChunk, h, ht, ih]
      · simp [foldSections, foldSectionsT, processSingleChunk, h, ht, ih]

/-- Claim C7 (counterexample): the input `0` then newline is entirely
dropped — the decoder emits no event and holds no partial, because the
line parses to the falsy JSON value zero, so neither disjunct of the
claimed conservation property holds for the character `0`. -/
theorem C7_counterexample :
    processRawChunkString ('0' :: [nl]) none = ([], none) ∧
    ¬ (∀ c ∈ ('0' :: [nl]),
        (∃ e ∈ (processRawChunkStringT ('0' :: [nl]) none).1.filter
            (fun e => truthy e.1), c ∈ e.2) ∨
        c ∈ orEmpty (processRawChunkStringT ('0' :: [nl]) none).2) := by
  decide

/-- Claim C7 (amended): for every nonempty chunk, the held partial plus
the chunk's non-newline characters decompose exactly into the source texts
consumed by the successful parse attempts followed by the new partial; the
emitted events are the truthy-valued attempts in order, so a line parsing
to a falsy JSON value is consumed without an event, newline delimiters are
framing, and (per the empty-chunk claim) an empty chunk discards the held
partial. -/
theorem C7_byte_conservation_amended (text : Str) (p : Option Str)
    (h : text ≠ []) :
    orEmpty p ++ text.filter (fun c => c ≠ nl) =
      ((processRawChunkStringT text p).1.map Prod.snd).flatten ++
        orEmpty (processRawChunkStringT text p).2 ∧
    processRawChunkString text p =
      (((processRawChunkStringT text p).1.filter
          (fun e => truthy e.1)).map Prod.fst,
       (processRawChunkStringT text p).2) := by
  constructor
  · simp only [processRawChunkStringT, if_neg h]
    rw [← sections_flatten]
    exact foldSectionsT_conserve (sections text) p
  · simp only [processRawChunkString, processRawChunkStringT, if_neg h]
    exact foldSections_eq_T (sections text) p

/-- Witness for the amended conservation claim on a chunk with one truthy
event and a leftover partial. -/
theorem C7_byte_conservation_amended_witness :
    orEmpty none ++ ('1' :: nl :: ['@']).filter (fun c => c ≠ nl) =
      ((processRawChunkStringT ('1' :: nl :: ['@']) none).1.map
          Prod.snd).flatten ++
        orEmpty (processRawChunkStringT ('1' :: nl :: ['@']) none).2 ∧
    processRawChunkString ('1' :: nl :: ['@']) none =
      (((processRawChunkStringT ('1' :: nl :: ['@']) none).1.filter
          (fun e => truthy e.1)).map Prod.fst,
       (processRawChunkStringT ('1' :: nl :: ['@']) none).2) :=
  C7_byte_conservation_amended ('1' :: nl :: ['@']) none (by decide)

/-! ### Claim C3: decode failures are non-fatal and contained -/

/-- Splitting a text that begins with a newline-free line followed by a
newline peels that line off as the first piece. -/
theorem splitNl_cons_of_not_mem (l : Str) (hl : nl ∉ l) :
    ∀ r : Str, splitNl (l ++ nl :: r) = l :: splitNl r := by
  induction l with
  | nil => intro r; simp [splitNl]
  | cons c l2 ih =>
    intro r
    have hc : c ≠ nl := fun he => hl (by simp [he])
    have hl2 : nl ∉ l2 := fun hx => hl (List.mem_cons_of_mem _ hx)
    simp only [List.cons_append, splitNl, if_neg hc]
    rw [show l2.append (nl :: r) = l2 ++ nl :: r from rfl, ih hl2 r]

/-- Claim C3 (counterexample): in the newline-JSON chunk decoder a line
that never becomes valid JSON is not contained: it merges into the partial
and swallows the following well-formed line, so the later event is never
emitted — zero events come out although the second line parses on its
own. -/
theorem C3_counterexample :
    (processRawChunkString ('@' :: nl :: jsonA ++ [nl]) none).1 = [] ∧
    JSON.parse jsonA = some evA ∧
    processRawChunkString ('@' :: nl :: jsonA ++ [nl]) none =
      ([], some ('@' :: jsonA)) := by
  decide

/-- Claim C3 (amended): no decode failure escapes either decoder as an
exception (both are total and return their events), and in the SSE decoder
failures are contained per line: after a malformed line that yields no
events, a following well-formed `data: ` line is still emitted.  In the
newline-JSON chunk decoder, by contrast, a permanently-invalid line merges
into the partial and suppresses the events of all later lines, as the
counterexample shows. -/
theorem C3_sse_containment_amended (l1 jc : Str) (v : Json)
    (h1 : nl ∉ l1) (h2 : nl ∉ jc) (hmal : processLine l1 = [])
    (hv : JSON.parse jc = some v) :
    sseDecodeAll [l1 ++ [nl] ++ (dataPrefix ++ jc) ++ [nl]] = [v] := by
  have hnd : nl ∉ dataPrefix ++ jc := by
    intro hx
    rcases List.mem_append.mp hx with hx | hx
    · revert hx; decide
    · exact h2 hx
  have hsplit : splitNl (l1 ++ [nl] ++ (dataPrefix ++ jc) ++ [nl]) =
      [l1, dataPrefix ++ jc, []] := by
    have hshape : l1 ++ [nl] ++ (dataPrefix ++ jc) ++ [nl] =
        l1 ++ nl :: ((dataPrefix ++ jc) ++ nl :: ([] : Str)) := by
      simp
    rw [hshape, splitNl_cons_of_not_mem l1 h1,
        splitNl_cons_of_not_mem _ hnd]
    rfl
  have hline : processLine (dataPrefix ++ jc) = [v] := by
    have hb : isBlank (dataPrefix ++ jc) = false := by
      simp only [isBlank, List.all_append]
      have hdp : dataPrefix.all isWsRe = false := by decide
      simp [hdp]
    have hp : dataPrefix <+: dataPrefix ++ jc := List.prefix_append _ _
    have hd : (dataPrefix ++ jc).drop 6 = jc := by
      rw [show (6 : Nat) = dataPrefix.length from rfl]
      exact List.drop_left _ _
    simp [processLine, hb, hp, hd, processDataPayload, hv]
  have hnil : processLine ([] : Str) = [] := rfl
  simp only [sseDecodeAll, sseRun, sseStep, List.nil_append, hsplit]
  simp [hmal, hline, hnil]

/-- Witness for the SSE containment claim: a malformed `data: ` line
followed by a well-formed one still emits the latter's event. -/
theorem C3_sse_containment_amended_witness :
    sseDecodeAll [(dataPrefix ++ ['@']) ++ [nl] ++
        (dataPrefix ++ jsonA) ++ [nl]] = [evA] :=
  C3_sse_containment_amended (dataPrefix ++ ['@']) jsonA evA (by decide)
    (by decide) (by decide) (by decide)

/-! ### Claim C5: reveal-index monotonicity -/

/-- One typewriter step never decreases the index ref and preserves the
tick invariant, provided a content update extends the last seen content. -/
theorem twStep_mono (s : TW) (op : Op) (hInv : InvB s = true)
    (hpre : ∀ c ic, op = Op.update c ic → s.lastContent <+: c) :
    s.idx ≤ (twStep s op).idx ∧ InvB (twStep s op) = true := by
  cases op with
  | tick =>
    rcases hp : s.pending with _ | ⟨fc, ci, cap⟩
    · simp [twStep, tickStep, hp, hInv]
    · have hic : s.idx = ci ∧ s.isTyping = true := by
        simpa [InvB, hp] using hInv
      simp only [twStep, tickStep, hp, runTypeNext]
      split_ifs with h1 h2 <;> constructor <;>
        simp_all [InvB]
  | update c ic =>
    have hpc : s.lastContent <+: c := hpre c ic rfl
    simp only [twStep, contentEffect]
    by_cases htd : s.typingDisabled = true
    · rw [if_pos htd]
      exact ⟨le_refl _, by simpa [InvB] using hInv⟩
    · rw [if_neg htd]
      have hreset : ¬ (c ≠ s.lastContent ∧ ¬ s.lastContent <+: c) := by
        intro hx
        exact hx.2 hpc
      rw [if_neg hreset]
      by_cases hgrow : s.lastContent.length < c.length ∧ s.lastContent <+: c
      · rw [if_pos hgrow]
        by_cases hdrop : c.drop s.idx ≠ []
        · rw [if_pos hdrop]
          simp only [continueTyping]
          by_cases hty : s.isTyping = true
          · rw [if_pos hty]
            exact ⟨le_refl _, by simpa [InvB] using hInv⟩
          · rw [if_neg hty]
            have hpn : s.pending = none := by
              rcases hp : s.pending with _ | ⟨fc0, ci0, cap0⟩
              · rfl
              · exfalso
                have hx : s.idx = ci0 ∧ s.isTyping = true := by
                  simpa [InvB, hp] using hInv
                exact hty hx.2
            simp only [runTypeNext]
            split_ifs with h1 h2 <;> constructor <;>
              simp_all [InvB]
        · rw [if_neg hdrop]
          exact ⟨le_refl _, by simpa [InvB] using hInv⟩
      · rw [if_neg hgrow]
        exact ⟨le_refl _, by simpa [InvB] using hInv⟩

/-- Runs of extension updates and ticks never decrease the index ref and
preserve the tick invariant. -/
theorem twRun_mono : ∀ (ops : List Op) (s : TW), InvB s = true →
    extOkB s ops = true →
    s.idx ≤ (twRun s ops).idx ∧ InvB (twRun s ops) = true := by
  intro ops
  induction ops with
  | nil => intro s hInv _; exact ⟨le_refl _, hInv⟩
  | cons op rest ih =>
    intro s hInv hext
    have hstep : s.idx ≤ (twStep s op).idx ∧ InvB (twStep s op) = true := by
      refine twStep_mono s op hInv ?_
      intro c ic hop
      subst hop
      simp only [extOkB, Bool.and_eq_true] at hext
      exact List.isPrefixOf_iff_prefix.mp hext.1
    have hext2 : extOkB (twStep s op) rest = true := by
      cases op with
      | update c ic =>
        simp only [extOkB, Bool.and_eq_true] at hext
        exact hext.2
      | tick => simpa [extOkB] using hext
    have hrest := ih (twStep s op) hstep.2 hext2
    exact ⟨le_trans hstep.1 hrest.1, by simpa [twRun] using hrest.2⟩

/-- Claim C5 (confirmed): over any run of content updates in which every
new content extends the last seen content (interleaved with timer ticks),
the typewriter's index ref never decreases; the reset branch is never
taken because the prefix relation holds, so typing always continues from
the current index. -/
theorem C5_reveal_index_monotone (s : TW) (ops : List Op)
    (hInv : InvB s = true) (hext : extOkB s ops = true) :
    s.idx ≤ (twRun s ops).idx :=
  (twRun_mono ops s hInv hext).1

/-- Witness for reveal-index monotonicity on the run delivering `He`, one
tick, then `Hello`. -/
theorem C5_reveal_index_monotone_witness :
    InvB TW.init = true ∧
    extOkB TW.init [Op.update (("He").toList) false, Op.tick,
      Op.update (("Hello").toList) false] = true ∧
    TW.init.idx ≤ (twRun TW.init [Op.update (("He").toList) false, Op.tick,
      Op.update (("Hello").toList) false]).idx :=
  ⟨by decide, by decide,
    C5_reveal_index_monotone TW.init [Op.update (("He").toList) false,
      Op.tick, Op.update (("Hello").toList) false] (by decide) (by decide)⟩

/-! ### Claim C1: chunk-boundary invariance of the newline-JSON decoder -/

/-- Appending distributes over the newline splitting through `joinLast`. -/
theorem splitNl_append : ∀ a b : Str,
    splitNl (a ++ b) = joinLast (splitNl a) (splitNl b) := by
  intro a
  induction a with
  | nil =>
    intro b
    rcases hs : splitNl b with _ | ⟨y, ys⟩
    · exact absurd hs (splitNl_ne_nil b)
    · simp [splitNl, joinLast, hs]
  | cons c a2 ih =>
    intro b
    by_cases hc : c = nl
    · subst hc
      rcases hs : splitNl a2 with _ | ⟨z, zs⟩
      · exact absurd hs (splitNl_ne_nil a2)
      · rw [List.cons_append,
            show splitNl (nl :: (a2 ++ b)) = [] :: splitNl (a2 ++ b) from
              by simp [splitNl],
            show splitNl (nl :: a2) = [] :: splitNl a2 from by simp [splitNl],
            ih, hs,
            show joinLast ([] :: z :: zs) (splitNl b) =
              [] :: joinLast (z :: zs) (splitNl b) from rfl]
    · rcases hs : splitNl a2 with _ | ⟨z, zs⟩
      · exact absurd hs (splitNl_ne_nil a2)
      · rcases hb : splitNl b with _ | ⟨y, ys⟩
        · exact absurd hb (splitNl_ne_nil b)
        · cases zs with
          | nil =>
            simp only [List.cons_append, splitNl, if_neg hc]
            rw [show a2.append b = a2 ++ b from rfl, ih, hs, hb]
            simp [joinLast]
          | cons z2 zs2 =>
            simp only [List.cons_append, splitNl, if_neg hc]
            rw [show a2.append b = a2 ++ b from rfl, ih, hs, hb]
            simp [joinLast]

/-- A nonempty list of pieces is its front followed by its last piece. -/
theorem dropLast_append_lastD : ∀ l : List Str, l ≠ [] →
    l.dropLast ++ [lastD l] = l := by
  intro l
  induction l with
  | nil => intro h; exact absurd rfl h
  | cons x xs ih =>
    intro _
    cases xs with
    | nil => simp [lastD]
    | cons y ys =>
      simp only [lastD, List.dropLast, List.cons_append]
      rw [ih (by simp)]

/-- The merge of the splittings fuses exactly the last piece of the left
with the first piece of the right. -/
theorem joinLast_eq : ∀ (A : List Str), A ≠ [] → ∀ (hb : Str) (B2 : List Str),
    joinLast A (hb :: B2) = A.dropLast ++ ((lastD A ++ hb) :: B2) := by
  intro A
  induction A with
  | nil => intro hA; exact absurd rfl hA
  | cons x xs ih =>
    intro _ hb B2
    cases xs with
    | nil => simp [joinLast, lastD]
    | cons x2 xs2 =>
      simp only [joinLast, lastD, List.dropLast, List.cons_append]
      rw [ih (by simp)]

/-- The section loop over an appended list is the composition of the loops,
threading the partial and appending the events. -/
theorem foldSections_append : ∀ (xs ys : List Str) (p : Option Str),
    foldSections (xs ++ ys) p =
      ((foldSections xs p).1 ++ (foldSections ys (foldSections xs p).2).1,
       (foldSections ys (foldSections xs p).2).2) := by
  intro xs
  induction xs with
  | nil => intro ys p; simp [foldSections]
  | cons l rest ih =>
    intro ys p
    rcases h : JSON.parse (orEmpty p ++ l) with _ | v
    · simp [foldSections, processSingleChunk, h, ih]
    · by_cases ht : truthy v <;>
        simp [foldSections, processSingleChunk, h, ht, ih]

/-- Processing a merged line equals processing its tail fragment with the
head fragment already absorbed into the partial: the decoder only ever
parses the concatenation, which is associative. -/
theorem fold_merge (q : Option Str) (la hbb : Str) (F2 : List Str) :
    foldSections ((la ++ hbb) :: F2) q =
      foldSections (hbb :: F2) (some (orEmpty q ++ la)) := by
  simp only [foldSections, processSingleChunk,
    show orEmpty (some (orEmpty q ++ la)) = orEmpty q ++ la from rfl,
    List.append_assoc]

/-- Two-chunk decomposition: decoding a concatenation equals decoding the
chunks in sequence whenever the boundary is sound — it lies just after a
newline, just before one, or the left decode leaves a nonempty partial
(its trailing fragment failed to parse). -/
theorem decode_append (a b : Str) (p : Option Str) (ha : a ≠ []) (hb : b ≠ [])
    (hcond : lastD (splitNl a) = [] ∨ (splitNl b).headD [] = [] ∨
      (processRawChunkString a p).2.isSome = true) :
    processRawChunkString (a ++ b) p =
      ((processRawChunkString a p).1 ++
        (processRawChunkString b (processRawChunkString a p).2).1,
       (processRawChunkString b (processRawChunkString a p).2).2) := by
  have hab : a ++ b ≠ [] := fun h => ha (List.append_eq_nil.mp h).1
  rcases hB : splitNl b with _ | ⟨hbb, B2⟩
  · exact absurd hB (splitNl_ne_nil b)
  · have hsplitab : splitNl (a ++ b) =
        (splitNl a).dropLast ++ ((lastD (splitNl a) ++ hbb) :: B2) := by
      rw [splitNl_append, hB, joinLast_eq (splitNl a) (splitNl_ne_nil a)]
    have hseca : sections a =
        ((splitNl a).dropLast).filter (fun l => l ≠ []) ++
          [lastD (splitNl a)].filter (fun l => l ≠ []) := by
      rw [sections]
      conv_lhs => rw [← dropLast_append_lastD (splitNl a) (splitNl_ne_nil a)]
      rw [List.filter_append]
    have hsecb : sections b =
        [hbb].filter (fun l => l ≠ []) ++ B2.filter (fun l => l ≠ []) := by
      rw [sections, hB, show hbb :: B2 = [hbb] ++ B2 from rfl,
          List.filter_append]
    have hsecab : sections (a ++ b) =
        ((splitNl a).dropLast).filter (fun l => l ≠ []) ++
          ([lastD (splitNl a) ++ hbb].filter (fun l => l ≠ []) ++
            B2.filter (fun l => l ≠ [])) := by
      rw [sections, hsplitab, List.filter_append,
          show (lastD (splitNl a) ++ hbb) :: B2 =
            [lastD (splitNl a) ++ hbb] ++ B2 from rfl, List.filter_append]
    have key : foldSections
          ([lastD (splitNl a) ++ hbb].filter (fun l => l ≠ []) ++
            B2.filter (fun l => l ≠ []))
          ((foldSections (((splitNl a).dropLast).filter (fun l => l ≠ []))
              p).2) =
        foldSections
          ([lastD (splitNl a)].filter (fun l => l ≠ []) ++
            ([hbb].filter (fun l => l ≠ []) ++ B2.filter (fun l => l ≠ [])))
          ((foldSections (((splitNl a).dropLast).filter (fun l => l ≠ []))
              p).2) := by
      by_cases hla : lastD (splitNl a) = []
      · rw [hla]
        simp
      · by_cases hhbb : hbb = []
        · rw [hhbb]
          simp
        · have hmidne : lastD (splitNl a) ++ hbb ≠ [] :=
            fun h => hla (List.append_eq_nil.mp h).1
          have hfla : [lastD (splitNl a)].filter (fun l => l ≠ []) =
              [lastD (splitNl a)] := by simp [hla]
          have hfhb : [hbb].filter (fun l => l ≠ []) = [hbb] := by
            simp [hhbb]
          have hfmid : [lastD (splitNl a) ++ hbb].filter (fun l => l ≠ []) =
              [lastD (splitNl a) ++ hbb] := by simp [hmidne]
          rw [hfla, hfhb, hfmid]
          have hq : (processRawChunkString a p).2.isSome = true := by
            rcases hcond with hc | hc | hc
            · exact absurd hc hla
            · rw [hB] at hc
              exact absurd (by simpa using hc) hhbb
            · exact hc
          rw [processRawChunkString, if_neg ha, hseca, hfla,
              foldSections_append] at hq
          rcases hpf : JSON.parse
              (orEmpty ((foldSections
                (((splitNl a).dropLast).filter (fun l => l ≠ [])) p).2) ++
                lastD (splitNl a)) with _ | v
          · rw [show ([lastD (splitNl a)] ++
                ([hbb] ++ B2.filter (fun l => l ≠ []))) =
                lastD (splitNl a) :: hbb :: B2.filter (fun l => l ≠ [])
                from rfl]
            rw [show ([lastD (splitNl a) ++ hbb] ++
                B2.filter (fun l => l ≠ [])) =
                (lastD (splitNl a) ++ hbb) :: B2.filter (fun l => l ≠ [])
                from rfl]
            rw [fold_merge]
            conv_rhs => rw [foldSections]
            simp only [processSingleChunk, hpf]
          · exfalso
            simp only [foldSections, processSingleChunk, hpf] at hq
            simp at hq
    simp only [processRawChunkString, if_neg ha, if_neg hb, if_neg hab]
    rw [hsecab, hseca, hsecb]
    rw [← foldSections_append, List.append_assoc]
    rw [foldSections_append
      (((splitNl a).dropLast).filter (fun l => l ≠ []))]
    rw [foldSections_append
      (((splitNl a).dropLast).filter (fun l => l ≠ []))]
    rw [key]

/-- An empty first piece of a splitting survives appending more text. -/
theorem headD_splitNl_append (x y : Str) (hx : x ≠ [])
    (h : (splitNl x).headD [] = []) : (splitNl (x ++ y)).headD [] = [] := by
  match x with
  | [] => exact absurd rfl hx
  | c :: t =>
    by_cases hc : c = nl
    · subst hc
      rw [List.cons_append]
      simp [splitNl]
    · exfalso
      rcases hs : splitNl t with _ | ⟨l, ls⟩
      · exact absurd hs (splitNl_ne_nil t)
      · rw [show splitNl (c :: t) = (c :: l) :: ls from by
          simp [splitNl, hc, hs]] at h
        simp at h

/-- Sequential decoding of a sound split equals decoding the whole
concatenated text: events and final partial both agree. -/
theorem decodeSeq_eq_flatten : ∀ (cs : List Str) (p : Option Str), cs ≠ [] →
    (∀ c ∈ cs, c ≠ []) → okSplit cs p = true →
    decodeSeq cs p = processRawChunkString cs.flatten p := by
  intro cs
  induction cs with
  | nil => intro p h _ _; exact absurd rfl h
  | cons c1 rest ih =>
    intro p _ hne hok
    cases rest with
    | nil =>
      simp [decodeSeq, List.flatten]
    | cons c2 rest2 =>
      have hc1 : c1 ≠ [] := hne c1 (by simp)
      have hc2 : c2 ≠ [] := hne c2 (by simp)
      have hflat2 : (c2 :: rest2).flatten ≠ [] := by
        simp only [List.flatten_cons]
        exact fun h => hc2 (List.append_eq_nil.mp h).1
      simp only [okSplit, Bool.and_eq_true] at hok
      have hbnd : lastD (splitNl c1) = [] ∨
          (splitNl ((c2 :: rest2).flatten)).headD [] = [] ∨
          (processRawChunkString c1 p).2.isSome = true := by
        have h1 := hok.1
        simp only [Bool.or_eq_true, beq_iff_eq] at h1
        rcases h1 with (h1 | h1) | h1
        · exact Or.inl h1
        · refine Or.inr (Or.inl ?_)
          rw [List.flatten_cons]
          exact headD_splitNl_append c2 _ hc2 h1
        · exact Or.inr (Or.inr h1)
      have hrest := ih ((processRawChunkString c1 p).2) (by simp)
        (fun c hc => hne c (List.mem_cons_of_mem _ hc)) hok.2
      rw [show (c1 :: c2 :: rest2).flatten =
        c1 ++ (c2 :: rest2).flatten from rfl]
      rw [decode_append c1 _ p hc1 hflat2 hbnd]
      rw [show decodeSeq (c1 :: c2 :: rest2) p =
          ((processRawChunkString c1 p).1 ++
            (decodeSeq (c2 :: rest2) (processRawChunkString c1 p).2).1,
           (decodeSeq (c2 :: rest2) (processRawChunkString c1 p).2).2)
        from rfl]
      rw [hrest]

/-- Claim C1 (counterexample): invariance fails for the split of `12`
followed by newline into `1` and `2` plus newline: the trailing fragment
`1` of the first chunk is itself valid JSON, so the sequential decode
emits the events one and two while the whole-text decode emits the single
event twelve. -/
theorem C1_counterexample :
    (decodeSeq [['1'], ['2', nl]] none).1 = [Json.num 1 0, Json.num 2 0] ∧
    (processRawChunkString ([['1'], ['2', nl]] : List Str).flatten none).1 =
      [Json.num 12 0] ∧
    (decodeSeq [['1'], ['2', nl]] none).1 ≠
      (processRawChunkString
        ([['1'], ['2', nl]] : List Str).flatten none).1 := by
  decide

/-- Claim C1 (amended): chunk-boundary invariance holds for every split
into nonempty sub-chunks whose boundaries are sound: at each boundary the
left chunk ends at a newline, or the right chunk starts with one, or the
sequential decoder holds a nonempty partial there (equivalently, the
trailing fragment so far does not itself parse as JSON — always the case
for the stream's newline-terminated JSON-object lines).  Splitting with an
empty sub-chunk can drop the partial, and a boundary whose pending
fragment already parses emits early, as the counterexample shows. -/
theorem C1_chunk_invariance_amended (cs : List Str)
    (hne : ∀ c ∈ cs, c ≠ []) (hok : okSplit cs none = true) :
    (decodeSeq cs none).1 = (processRawChunkString cs.flatten none).1 := by
  cases cs with
  | nil => simp [decodeSeq, processRawChunkString]
  | cons c cs2 =>
    rw [decodeSeq_eq_flatten (c :: cs2) none (by simp) hne hok]

/-- Witness for the amended invariance claim: a JSON object line split in
the middle decodes to the same single event either way. -/
theorem C1_chunk_invariance_amended_witness :
    (∀ c ∈ [jsonA.take 4, jsonA.drop 4 ++ [nl]], c ≠ []) ∧
    okSplit [jsonA.take 4, jsonA.drop 4 ++ [nl]] none = true ∧
    (decodeSeq [jsonA.take 4, jsonA.drop 4 ++ [nl]] none).1 =
      (processRawChunkString
        ([jsonA.take 4, jsonA.drop 4 ++ [nl]] : List Str).flatten none).1 :=
  ⟨by decide, by decide,
    C1_chunk_invariance_amended [jsonA.take 4, jsonA.drop 4 ++ [nl]]
      (by decide) (by decide)⟩
